import Mathlib

/-!
Verification development for a local-first shogi kifu analysis service.
The development shallowly embeds the browser client
(`src/server/assets_web/js/app.js`) and, where only the specification
describes a component (the server-side game tree engine and the analysis
coordinator), a model built from the specification text.  Nullable
JavaScript values become `Option`, JavaScript numbers on integer-valued
fields become `Int`, and the WebSocket channel is modelled by the frames
a handler returns.
-/

namespace App

/-- JavaScript truthiness of a nullable string: `null` and the empty
string are falsy, every other string is truthy. -/
def strTruthy : Option String → Bool
  | none => false
  | some s => s != ""

/-- JavaScript `x || null` applied to a string field: an absent or empty
value collapses to `null`. -/
def strOrNull (s : String) : Option String :=
  if s = "" then none else some s

/-- JavaScript `Number(x || d)` on an integer-valued field: an absent or
zero value falls back to the default `d`. -/
def numOr (x : Option Int) (d : Int) : Int :=
  match x with
  | none => d
  | some v => if v = 0 then d else v

/-- Source function `clamp(n, a, b)` from app.js:
`Math.min(b, Math.max(a, n))`. -/
def clamp (n a b : Int) : Int := min b (max a n)

/-- Payload shapes of the outbound frames built by the app.js handlers. -/
inductive WsPayload where
  | empty
  | jump (node_id : String)
  | playMove (from_node_id : String) (move_usi : String)
  | setEnabled (enabled : Bool)
  | setMultipv (multipv : Int)
  | save (title : String)
  | load (game_id : String)
  deriving DecidableEq

/-- An outbound JSON frame; `session_id` and `owner_token` are optional
fields, absent when `none`. -/
structure WsFrame where
  type : String
  payload : WsPayload
  session_id : Option String
  owner_token : Option String
  deriving DecidableEq

/-- The session-related part of the mutable `state` object in app.js. -/
structure ClientState where
  wsOpen : Bool
  hasGranted : Bool
  isOwner : Bool
  sessionId : Option String
  ownerToken : Option String
  deriving DecidableEq

/-- The client state at script start. -/
def initState : ClientState :=
  { wsOpen := false, hasGranted := false, isOwner := false,
    sessionId := none, ownerToken := none }

/-- Source function `sendWs(type, payload)` (app.js lines 208-217): when
the socket is open it sends `{type, payload}`, attaching `session_id`
and `owner_token` exactly when the corresponding state fields are
truthy; when the socket is not open nothing is sent. -/
def sendWs (s : ClientState) (ty : String) (p : WsPayload) : Option WsFrame :=
  if s.wsOpen then
    some { type := ty, payload := p,
           session_id := if strTruthy s.sessionId then s.sessionId else none,
           owner_token := if strTruthy s.ownerToken then s.ownerToken else none }
  else none

/-- WebSocket lifecycle and session messages that update the session
fields of the client state. -/
inductive ClientEv where
  | wsOpenEv
  | wsCloseEv
  | busy
  | kicked
  | stale
  | granted (session_id : String) (owner_token : String)

/-- Effect of each event on the session fields, mirroring the `connectWs`
handlers in app.js: socket close, `session:busy`, `session:kicked` and
`session:stale` all clear the grant and both tokens (`session:stale`
additionally closes the socket), while `session:granted` installs
`payload.session_id || null` and `payload.owner_token || null`. -/
def applyEv (s : ClientState) : ClientEv → ClientState
  | .wsOpenEv => { s with wsOpen := true }
  | .wsCloseEv =>
    { s with wsOpen := false, hasGranted := false, isOwner := false,
             sessionId := none, ownerToken := none }
  | .busy =>
    { s with hasGranted := false, isOwner := false,
             sessionId := none, ownerToken := none }
  | .kicked =>
    { s with hasGranted := false, isOwner := false,
             sessionId := none, ownerToken := none }
  | .stale =>
    { s with wsOpen := false, hasGranted := false, isOwner := false,
             sessionId := none, ownerToken := none }
  | .granted sid tok =>
    { s with hasGranted := true, isOwner := true,
             sessionId := strOrNull sid, ownerToken := strOrNull tok }

/-- Run a sequence of session events from the initial client state. -/
def runEvs (evs : List ClientEv) : ClientState :=
  evs.foldl applyEv initState

/-- Click handler attached to a move-list entry (`renderMoveList`,
app.js line 765): it sends `node:jump` with no owner gate. -/
def moveListJumpClick (s : ClientState) (id : String) : Option WsFrame :=
  sendWs s "node:jump" (.jump id)

/-- Click handler attached to a variation-tree button (`renderTree`,
app.js line 782): it also sends `node:jump` with no owner gate. -/
def treeJumpClick (s : ClientState) (id : String) : Option WsFrame :=
  sendWs s "node:jump" (.jump id)

/-- The `state.analysis` fields relevant to the analysis handlers. -/
structure AnalysisState where
  available : Bool
  enabled : Bool
  multipv : Int
  statusText : String
  nodeId : Option String
  deriving DecidableEq

/-- A toast notification, as produced by `toast(level, message)`. -/
structure Toast where
  level : String
  message : String
  deriving DecidableEq

/-- Source function `syncAnalysisFromGame` (app.js lines 1274-1289):
copies `ui_state.analysis_enabled`, clamps
`Number(ui_state.analysis_multipv || 1)` into `1..5`, and resets the
running status when the current node changed. -/
def syncAnalysisFromGame (a : AnalysisState) (analysis_enabled : Bool)
    (analysis_multipv : Option Int) (curNode : Option String) : AnalysisState :=
  { a with enabled := analysis_enabled,
           multipv := clamp (numOr analysis_multipv 1) 1 5,
           statusText :=
             if strTruthy a.nodeId && strTruthy curNode && a.nodeId != curNode
             then (if analysis_enabled then "starting..." else "stopped")
             else a.statusText }

/-- Analysis part of the `session:granted` handler (app.js lines
1376-1399): `rawMultipv = Number(payload.analysis_state?.multipv || 1) || 1`
is clamped into `1..5`; the raw value is kept for the renormalization
check. -/
def grantedAnalysis (a : AnalysisState) (caps_analysis : Bool)
    (as_enabled : Bool) (as_multipv : Option Int) : AnalysisState × Int :=
  let raw0 := numOr as_multipv 1
  let raw := if raw0 = 0 then 1 else raw0
  ({ a with available := caps_analysis, enabled := as_enabled,
            multipv := clamp raw 1 5 }, raw)

/-- Renormalization send at the end of the `session:granted` handler
(app.js lines 1396-1399): if an older config stored MultiPV outside the
clamp, the clamped value is sent back with `analysis:set_multipv`. -/
def grantedResend (s : ClientState) (a : AnalysisState) (raw : Int) :
    Option WsFrame :=
  if a.available && s.isOwner && strTruthy s.sessionId && raw != a.multipv then
    sendWs s "analysis:set_multipv" (.setMultipv a.multipv)
  else none

/-- Change handler of the MultiPV select (`wireUi`, app.js lines
1515-1520): the input value is clamped into `1..5` and sent as
`analysis:set_multipv`. -/
def multipvChange (s : ClientState) (v : Option Int) : Option WsFrame :=
  sendWs s "analysis:set_multipv" (.setMultipv (clamp (numOr v 1) 1 5))

/-- Test whether the second list starts with the first. -/
def listStartsWith : List Char → List Char → Bool
  | [], _ => true
  | _ :: _, [] => false
  | p :: ps, h :: hs => p == h && listStartsWith ps hs

/-- Test whether the first list occurs as a contiguous run of the
second. -/
def listContainsSub (pat : List Char) : List Char → Bool
  | [] => pat.isEmpty
  | h :: hs => listStartsWith pat (h :: hs) || listContainsSub pat hs

/-- Lowercased character sequence of a string. -/
def lowerChars (r : String) : List Char := r.toList.map Char.toLower

/-- Case-insensitive engine-error test of the `analysis:stopped` handler
(app.js line 1428): the JavaScript regular expression
`(failed|timeout|not configured|exited|error)` with the `i` flag. -/
def engineErrReason (r : String) : Bool :=
  ["failed", "timeout", "not configured", "exited", "error"].any
    (fun w => listContainsSub w.toList (lowerChars r))

/-- Source handler for `analysis:stopped` (app.js lines 1425-1433): the
status text becomes `String(payload.reason || "stopped")` and an
error toast carrying the reason is produced exactly when the reason
matches the engine-error pattern. -/
def analysisStopped (a : AnalysisState) (reason : String) :
    AnalysisState × List Toast :=
  let a1 := { a with statusText := if reason = "" then "stopped" else reason }
  let ts := if engineErrReason reason then
      [{ level := "error", message := reason }] else []
  (a1, ts)

/-- A piece on a board square: `{owner, piece}` as produced by the SFEN
parser, with owners `"sente"` and `"gote"` and piece-type names such as
`"pawn"` or `"promoted_pawn"`. -/
structure BoardPiece where
  owner : String
  piece : String
  deriving DecidableEq

/-- The 9x9 board of the parsed SFEN: `board[r][c]` is `null` or a piece. -/
def Board := Fin 9 → Fin 9 → Option BoardPiece

/-- Modelled from the spec: the vendor helper `normalizeDropPieceType`
(imported from `/js/vendor/usi.js`, which is not among the sources) maps
a promoted piece type back to the base type that sits in hand, keeps
droppable base types, and is falsy otherwise; the glossary fixes drops
to base pieces such as `P*5f`. -/
def normalizeDropPieceType (t : String) : Option String :=
  if t = "promoted_pawn" then some "pawn"
  else if t = "promoted_lance" then some "lance"
  else if t = "promoted_knight" then some "knight"
  else if t = "promoted_silver" then some "silver"
  else if t = "horse" then some "bishop"
  else if t = "dragon" then some "rook"
  else if t = "pawn" || t = "lance" || t = "knight" || t = "silver"
       || t = "gold" || t = "bishop" || t = "rook" then some t
  else none

/-- Source function `baseType` (app.js lines 260-263):
`normalizeDropPieceType(t) || t`. -/
def baseType (t : String) : String := (normalizeDropPieceType t).getD t

/-- Source function `wouldCreateNifu` (app.js lines 392-398): true when
the column already holds an unpromoted pawn of the same owner (the
`row` argument is unused, as in the source). -/
def wouldCreateNifu (board : Board) (row col : Fin 9) (owner : String) : Bool :=
  (List.finRange 9).any (fun r =>
    match board r col with
    | some p => p.owner == owner && p.piece == "pawn"
    | none => false)

/-- Source function `isDeadEndDrop` (app.js lines 400-409): a pawn or
lance may not be dropped on the last rank, a knight not on the last two
ranks, relative to the owner's direction. -/
def isDeadEndDrop (pieceType : String) (row : Fin 9) (owner : String) : Bool :=
  if pieceType == "pawn" || pieceType == "lance" then
    if owner == "sente" then row.val == 0 else row.val == 8
  else if pieceType == "knight" then
    if owner == "sente" then decide (row.val ≤ 1) else decide (7 ≤ row.val)
  else false

/-- All squares in the iteration order of the source loops. -/
def allSquares : List (Fin 9 × Fin 9) :=
  (List.finRange 9).flatMap (fun r => (List.finRange 9).map (fun c => (r, c)))

/-- Source function `getDropMoves` (app.js lines 411-423): collect the
empty squares, skipping nifu squares for pawns and dead-end ranks. -/
def getDropMoves (board : Board) (pieceType : String) (owner : String) :
    List (Fin 9 × Fin 9) :=
  let t := baseType pieceType
  allSquares.filter (fun rc =>
    board rc.1 rc.2 == none
    && !(t == "pawn" && wouldCreateNifu board rc.1 rc.2 owner)
    && !(isDeadEndDrop t rc.1 owner))

/-- The part of the `game:state` snapshot used by navigation:
`children_index` maps a node id to the ordered list of child ids. -/
structure GameView where
  children_index : List (String × List String)

/-- Lookup in `children_index`. -/
def childIds (g : GameView) (id : String) : Option (List String) :=
  (g.children_index.find? (fun e => e.1 == id)).map (·.2)

/-- Source function `firstChildId` (app.js lines 233-236): the head of
the `children_index` entry, or `null`. -/
def firstChildId (g : GameView) (id : String) : Option String :=
  match childIds g id with
  | some (c :: _) => some c
  | _ => none

/-- The jump-to-end loop of the `btnEnd` handler (`wireUi`, app.js lines
1494-1503), written with explicit fuel: repeatedly replace the current
node by its first child until there is none. -/
def jumpEndFrom (g : GameView) : Nat → String → String
  | 0, cur => cur
  | fuel + 1, cur =>
    match firstChildId g cur with
    | none => cur
    | some c => jumpEndFrom g fuel c

/-- Invariant tying the session fields together: a client that is not
the owner holds no tokens, and stored tokens are never the empty
string (the `session:granted` handler nulls empty payload fields). -/
def sessionInv (s : ClientState) : Prop :=
  (s.isOwner = false → s.sessionId = none ∧ s.ownerToken = none) ∧
  (∀ x, s.sessionId = some x → x ≠ "") ∧
  (∀ x, s.ownerToken = some x → x ≠ "")

/-- A principal-variation line as consumed by `scoreToCpLike`. -/
structure PVLine where
  score_type : String
  score_value : Option Int
  deriving DecidableEq

/-- Source function `scoreToCpLike` (app.js lines 837-847). -/
def scoreToCpLike (line : Option PVLine) : Option Int :=
  match line with
  | none => none
  | some l =>
    if l.score_type = "cp" then some (l.score_value.getD 0)
    else if l.score_type = "mate" then
      let v := l.score_value.getD 0
      let sign : Int := if 0 ≤ v then 1 else -1
      some (sign * 30000)
    else none

end App

namespace Core

/-- Modelled from the spec: a node of the server game tree (spec section
3, "Node"), restricted to the fields the tree operations touch; ids are
numbers drawn from a counter. -/
structure SNode where
  node_id : Nat
  parent_id : Option Nat
  order_index : Nat
  move_usi : Option String
  deriving DecidableEq

/-- Modelled from the spec: the in-memory authoritative game tree with a
fresh-id counter and the `current_node_id` cursor. -/
structure STree where
  nodes : List SNode
  counter : Nat
  current : Nat
  deriving DecidableEq

/-- Modelled from the spec: error kinds of the tree operations (spec
section 7). -/
inductive TreeError where
  | UnknownNode
  | BadPermutation
  deriving DecidableEq

/-- Whitespace test used by move normalization. -/
def isSpaceChar (c : Char) : Bool :=
  c == ' ' || c == '\t' || c == '\n' || c == '\r'

/-- Dedup normalization of a USI move (spec section 4.1): lowercase,
trimmed. -/
def normMove (m : String) : String :=
  ⟨((m.toList.dropWhile isSpaceChar).reverse.dropWhile
      isSpaceChar).reverse.map Char.toLower⟩

/-- Membership test for a node id. -/
def nodeExists (t : STree) (id : Nat) : Bool :=
  t.nodes.any (fun n => n.node_id == id)

/-- Children of a node, in stored order. -/
def childrenOfT (t : STree) (pid : Nat) : List SNode :=
  t.nodes.filter (fun n => n.parent_id == some pid)

/-- First child of `pid` whose stored move equals the normalized move. -/
def findDup (t : STree) (pid : Nat) (mm : String) : Option SNode :=
  (childrenOfT t pid).find? (fun c => c.move_usi == some mm)

/-- Modelled from the spec: `play_move(from_node_id, move_usi)` (spec
section 4.1).  If a child with an equal normalized move exists its id is
returned and no node is created; otherwise a child is appended with
`order_index = current_children_count`; either way the cursor moves to
the returned node.  Fails with `UnknownNode` when the parent does not
exist. -/
def play_move (t : STree) (pid : Nat) (m : String) :
    Except TreeError (STree × Nat) :=
  if nodeExists t pid = false then .error .UnknownNode else
  match findDup t pid (normMove m) with
  | some c => .ok ({ t with current := c.node_id }, c.node_id)
  | none =>
    .ok ({ nodes := t.nodes ++
             [{ node_id := t.counter, parent_id := some pid,
                order_index := (childrenOfT t pid).length,
                move_usi := some (normMove m) }],
           counter := t.counter + 1, current := t.counter }, t.counter)

/-- Rewrite of one node performed by `reorder_children`: a child of the
parent receives the position of its id in the given list as its new
`order_index`; other nodes are untouched. -/
def reorderNode (pid : Nat) (ids : List Nat) (n : SNode) : SNode :=
  if n.parent_id == some pid then
    { n with order_index := ids.indexOf n.node_id }
  else n

/-- Modelled from the spec: `reorder_children(parent_id,
ordered_child_ids)` (spec section 4.1).  The list must be a permutation
of the current children ids; `order_index` is rewritten to the position
in the list, all-or-nothing, and the cursor is untouched. -/
def reorder_children (t : STree) (pid : Nat) (ids : List Nat) :
    Except TreeError STree :=
  if nodeExists t pid = false then .error .UnknownNode else
  if ids.Perm ((childrenOfT t pid).map (·.node_id)) then
    .ok { t with nodes := t.nodes.map (reorderNode pid ids) }
  else .error .BadPermutation

/-- Number of children of `pid` carrying the given normalized move. -/
def matchCount (t : STree) (pid : Nat) (mm : String) : Nat :=
  ((childrenOfT t pid).filter (fun c => c.move_usi == some mm)).length

/-- A tree mutation, for sequences of operations. -/
inductive Op where
  | play (pid : Nat) (m : String)
  | reorder (pid : Nat) (ids : List Nat)

/-- Apply one operation; a failing operation leaves the tree unchanged
(the synchronizer never partially applies). -/
def applyOp (t : STree) : Op → STree
  | .play pid m =>
    match play_move t pid m with
    | .ok (t1, _) => t1
    | .error _ => t
  | .reorder pid ids =>
    match reorder_children t pid ids with
    | .ok t1 => t1
    | .error _ => t

/-- Apply a finite sequence of operations. -/
def applyOps (t : STree) (ops : List Op) : STree :=
  ops.foldl applyOp t

/-- Sibling order gaplessness (spec section 8): for every node, the
multiset of its children's `order_index` is exactly `0..k-1`. -/
def Gapless (t : STree) : Prop :=
  ∀ n ∈ t.nodes,
    ((childrenOfT t n.node_id).map (·.order_index)).Perm
      (List.range (childrenOfT t n.node_id).length)

/-- Well-formedness of a tree: distinct node ids, ids below the fresh
counter, parent pointers resolving to nodes, and gapless sibling
orders. -/
def WF (t : STree) : Prop :=
  (t.nodes.map (·.node_id)).Nodup ∧
  (∀ n ∈ t.nodes, n.node_id < t.counter) ∧
  (∀ n ∈ t.nodes, ∀ p, n.parent_id = some p →
     ∃ m ∈ t.nodes, m.node_id = p) ∧
  Gapless t

instance : DecidablePred Gapless := fun t => by
  unfold Gapless; infer_instance

instance : DecidablePred WF := fun t => by
  unfold WF; infer_instance

/-- Modelled from the spec: the state of the analysis coordinator's
coalescer (spec section 4.4): the search start time, the time of the
last flush, and the dirty flag set by raw `info` updates. -/
structure CoState where
  startT : Nat
  lastFlush : Option Nat
  dirty : Bool
  deriving DecidableEq

/-- Coordinator state at search start. -/
def coInit (startT : Nat) : CoState :=
  { startT := startT, lastFlush := none, dirty := false }

/-- Modelled from the spec: the flush interval, 500 ms during the first
5000 ms after the search start and 1000 ms thereafter. -/
def coInterval (startT t : Nat) : Nat :=
  if t < startT + 5000 then 500 else 1000

/-- Modelled from the spec: a timer tick at time `t` flushes only when a
raw update arrived since the last flush and the interval has passed. -/
def canFlush (s : CoState) (t : Nat) : Bool :=
  s.dirty &&
    match s.lastFlush with
    | none => true
    | some lf => decide (coInterval s.startT t ≤ t - lf)

/-- An event seen by the coalescer: a raw engine `info` update or a
timer tick, each carrying its arrival time. -/
inductive CoEvent where
  | raw (t : Nat)
  | tick (t : Nat)

/-- One coalescer step: raw updates set the dirty flag; a tick that may
flush emits an `analysis:update` at its time, records the flush time and
clears the dirty flag. -/
def coStep (s : CoState) : CoEvent → CoState × Option Nat
  | .raw _ => ({ s with dirty := true }, none)
  | .tick t =>
    if canFlush s t then
      ({ s with lastFlush := some t, dirty := false }, some t)
    else (s, none)

/-- Run the coalescer over an event list, collecting emission times. -/
def coRun (s : CoState) : List CoEvent → CoState × List Nat
  | [] => (s, [])
  | ev :: evs =>
    ((coRun (coStep s ev).1 evs).1,
     (coStep s ev).2.toList ++ (coRun (coStep s ev).1 evs).2)

/-- The cadence requirement between an emission at time `a` and the next
one at time `b`, relative to the search start. -/
def cadenceOK (startT a b : Nat) : Prop :=
  if b < startT + 5000 then 500 ≤ b - a else 1000 ≤ b - a

/-- Number of raw updates in an event list. -/
def rawCount (evs : List CoEvent) : Nat :=
  (evs.filter (fun e => match e with | .raw _ => true | _ => false)).length

end Core

/-- Bounds of the app.js `clamp` when the interval is nonempty. -/
theorem clamp_bounds (n a b : Int) (h : a ≤ b) :
    a ≤ App.clamp n a b ∧ App.clamp n a b ≤ b := by
  unfold App.clamp
  exact ⟨le_min h (le_max_left a n), min_le_left b _⟩

/-- C8: scoreToCpLike is total and sign-preserving on mate scores: it
returns the numeric score on `cp` lines, exactly plus 30000 on `mate`
lines with nonnegative distance (including zero), exactly minus 30000 on
negative mate distance, and `null` on a null line or an unknown score
type. -/
theorem scoreToCpLike_spec :
    (App.scoreToCpLike none = none) ∧
    (∀ l : App.PVLine, ∀ v : Int, l.score_value = some v →
      (l.score_type = "cp" → App.scoreToCpLike (some l) = some v) ∧
      (l.score_type = "mate" → 0 ≤ v →
        App.scoreToCpLike (some l) = some 30000) ∧
      (l.score_type = "mate" → v < 0 →
        App.scoreToCpLike (some l) = some (-30000))) ∧
    (∀ l : App.PVLine, l.score_type ≠ "cp" → l.score_type ≠ "mate" →
      App.scoreToCpLike (some l) = none) := by
  refine ⟨rfl, ?_, ?_⟩
  · intro l v hv
    refine ⟨?_, ?_, ?_⟩
    · intro hcp
      simp [App.scoreToCpLike, hcp, hv]
    · intro hm h0
      have hne : l.score_type ≠ "cp" := by rw [hm]; decide
      simp [App.scoreToCpLike, hm, hne, hv, h0]
    · intro hm hneg
      have hne : l.score_type ≠ "cp" := by rw [hm]; decide
      have h0 : ¬(0 : Int) ≤ v := by omega
      simp [App.scoreToCpLike, hm, hne, hv, h0]
  · intro l h1 h2
    simp [App.scoreToCpLike, h1, h2]

/-- C8 witness: a mate score of distance zero maps to plus 30000. -/
theorem scoreToCpLike_spec_witness :
    App.scoreToCpLike (some { score_type := "mate", score_value := some 0 })
      = some 30000 :=
  (scoreToCpLike_spec.2.1 _ 0 rfl).2.1 rfl (by decide)

/-- C7: the `analysis:stopped` handler sets the status text to the
reason and produces an error-level toast exactly when the reason matches
the engine-error pattern; otherwise it sets the status text (falling
back to `"stopped"` on an absent reason) and produces no toast. -/
theorem analysisStopped_spec (a : App.AnalysisState) (reason : String) :
    (App.engineErrReason reason = true →
      (App.analysisStopped a reason).1.statusText = reason ∧
      (App.analysisStopped a reason).2 =
        [{ level := "error", message := reason }]) ∧
    (App.engineErrReason reason = false →
      (App.analysisStopped a reason).1.statusText =
        (if reason = "" then "stopped" else reason) ∧
      (App.analysisStopped a reason).2 = []) := by
  constructor
  · intro h
    have hne : reason ≠ "" := by
      intro h0
      rw [h0] at h
      exact absurd h (by decide)
    unfold App.analysisStopped
    simp [h, hne]
  · intro h
    unfold App.analysisStopped
    simp [h]

/-- C7 witness: reason `"exited"` sets the status text and raises an
error toast. -/
theorem analysisStopped_spec_witness :
    (App.analysisStopped
      { available := true, enabled := true, multipv := 1,
        statusText := "running", nodeId := none } "exited").1.statusText
        = "exited" ∧
    (App.analysisStopped
      { available := true, enabled := true, multipv := 1,
        statusText := "running", nodeId := none } "exited").2 =
      [{ level := "error", message := "exited" }] :=
  (analysisStopped_spec _ "exited").1 (by decide)

/-- C5: MultiPV is confined to 1..5 on the client: the select-change
handler emits a clamped value, `syncAnalysisFromGame` and the
`session:granted` handler store a clamped value whatever the server
supplies, and the renormalization send at the end of the granted handler
also carries a value in 1..5. -/
theorem multipv_confined :
    (∀ s v fr, App.multipvChange s v = some fr →
      fr.type = "analysis:set_multipv" ∧
      fr.payload = .setMultipv (App.clamp (App.numOr v 1) 1 5) ∧
      1 ≤ App.clamp (App.numOr v 1) 1 5 ∧
      App.clamp (App.numOr v 1) 1 5 ≤ 5) ∧
    (∀ a e m c, 1 ≤ (App.syncAnalysisFromGame a e m c).multipv ∧
      (App.syncAnalysisFromGame a e m c).multipv ≤ 5) ∧
    (∀ a ca en m, 1 ≤ (App.grantedAnalysis a ca en m).1.multipv ∧
      (App.grantedAnalysis a ca en m).1.multipv ≤ 5) ∧
    (∀ s a ca en m fr,
      App.grantedResend s (App.grantedAnalysis a ca en m).1
        (App.grantedAnalysis a ca en m).2 = some fr →
      ∃ mv, fr.payload = .setMultipv mv ∧ 1 ≤ mv ∧ mv ≤ 5) := by
  refine ⟨?_, ?_, ?_, ?_⟩
  · intro s v fr h
    unfold App.multipvChange App.sendWs at h
    by_cases hw : s.wsOpen
    · rw [if_pos hw] at h
      cases h
      exact ⟨rfl, rfl, clamp_bounds _ 1 5 (by omega)⟩
    · rw [if_neg hw] at h
      cases h
  · intro a e m c
    exact clamp_bounds (App.numOr m 1) 1 5 (by omega)
  · intro a ca en m
    unfold App.grantedAnalysis
    exact clamp_bounds _ 1 5 (by omega)
  · intro s a ca en m fr h
    unfold App.grantedResend at h
    by_cases hg : (App.grantedAnalysis a ca en m).1.available
        && s.isOwner && App.strTruthy s.sessionId
        && ((App.grantedAnalysis a ca en m).2
            != (App.grantedAnalysis a ca en m).1.multipv)
    · rw [if_pos hg] at h
      unfold App.sendWs at h
      by_cases hw : s.wsOpen
      · rw [if_pos hw] at h
        cases h
        refine ⟨(App.grantedAnalysis a ca en m).1.multipv, rfl, ?_⟩
        unfold App.grantedAnalysis
        exact clamp_bounds _ 1 5 (by omega)
      · rw [if_neg hw] at h
        cases h
    · rw [if_neg hg] at h
      cases h

/-- C5 witness: a stored MultiPV of 9 is clamped to 5 before being
sent. -/
theorem multipv_confined_witness :
    ∃ fr, App.multipvChange
      { wsOpen := true, hasGranted := true, isOwner := true,
        sessionId := some "S", ownerToken := some "T" } (some 9) = some fr ∧
      fr.type = "analysis:set_multipv" ∧
      fr.payload = .setMultipv (App.clamp (App.numOr (some 9) 1) 1 5) ∧
      1 ≤ App.clamp (App.numOr (some 9) 1) 1 5 ∧
      App.clamp (App.numOr (some 9) 1) 1 5 ≤ 5 :=
  ⟨{ type := "analysis:set_multipv", payload := .setMultipv 5,
     session_id := some "S", owner_token := some "T" },
   by decide,
   multipv_confined.1
     { wsOpen := true, hasGranted := true, isOwner := true,
       sessionId := some "S", ownerToken := some "T" } (some 9)
     { type := "analysis:set_multipv", payload := .setMultipv 5,
       session_id := some "S", owner_token := some "T" } (by decide)⟩

/-- The session invariant holds initially. -/
theorem sessionInv_init : App.sessionInv App.initState := by
  refine ⟨fun _ => ⟨rfl, rfl⟩, ?_, ?_⟩ <;> intro x h <;> cases h

/-- Every session event preserves the session invariant. -/
theorem sessionInv_applyEv (s : App.ClientState) (ev : App.ClientEv)
    (h : App.sessionInv s) : App.sessionInv (App.applyEv s ev) := by
  cases ev with
  | wsOpenEv => exact h
  | wsCloseEv =>
    refine ⟨fun _ => ⟨rfl, rfl⟩, ?_, ?_⟩ <;> intro x hx <;> cases hx
  | busy =>
    refine ⟨fun _ => ⟨rfl, rfl⟩, ?_, ?_⟩ <;> intro x hx <;> cases hx
  | kicked =>
    refine ⟨fun _ => ⟨rfl, rfl⟩, ?_, ?_⟩ <;> intro x hx <;> cases hx
  | stale =>
    refine ⟨fun _ => ⟨rfl, rfl⟩, ?_, ?_⟩ <;> intro x hx <;> cases hx
  | granted sid tok =>
    refine ⟨?_, ?_, ?_⟩
    · intro hfalse; cases hfalse
    · intro x hx
      have hx2 : App.strOrNull sid = some x := hx
      unfold App.strOrNull at hx2
      by_cases hs : sid = ""
      · rw [if_pos hs] at hx2; cases hx2
      · rw [if_neg hs] at hx2; cases hx2; exact hs
    · intro x hx
      have hx2 : App.strOrNull tok = some x := hx
      unfold App.strOrNull at hx2
      by_cases hs : tok = ""
      · rw [if_pos hs] at hx2; cases hx2
      · rw [if_neg hs] at hx2; cases hx2; exact hs

/-- The session invariant holds after any event sequence. -/
theorem sessionInv_runEvs (evs : List App.ClientEv) :
    App.sessionInv (App.runEvs evs) := by
  unfold App.runEvs
  have : ∀ s, App.sessionInv s → App.sessionInv (evs.foldl App.applyEv s) := by
    induction evs with
    | nil => intro s hs; exact hs
    | cons ev evs ih =>
      intro s hs
      exact ih _ (sessionInv_applyEv s ev hs)
  exact this _ sessionInv_init

/-- C1: while the client holds granted session credentials (both token
fields non-null in a reachable state) and the socket is open, every
frame built by `sendWs` carries `session_id` and `owner_token` equal to
the stored credentials, alongside the given type and payload. -/
theorem sendWs_carries_granted_tokens (evs : List App.ClientEv)
    (ty : String) (p : App.WsPayload)
    (hopen : (App.runEvs evs).wsOpen = true)
    (hs : (App.runEvs evs).sessionId ≠ none)
    (ht : (App.runEvs evs).ownerToken ≠ none) :
    App.sendWs (App.runEvs evs) ty p =
      some { type := ty, payload := p,
             session_id := (App.runEvs evs).sessionId,
             owner_token := (App.runEvs evs).ownerToken } := by
  obtain ⟨_, hinv1, hinv2⟩ := sessionInv_runEvs evs
  have h1 : App.strTruthy (App.runEvs evs).sessionId = true := by
    cases hx : (App.runEvs evs).sessionId with
    | none => exact absurd hx hs
    | some x =>
      have := hinv1 x hx
      simp [App.strTruthy, this]
  have h2 : App.strTruthy (App.runEvs evs).ownerToken = true := by
    cases hx : (App.runEvs evs).ownerToken with
    | none => exact absurd hx ht
    | some x =>
      have := hinv2 x hx
      simp [App.strTruthy, this]
  unfold App.sendWs
  rw [if_pos hopen, if_pos h1, if_pos h2]

/-- C1 witness: after open and grant, a `game:save` frame carries the
granted tokens. -/
theorem sendWs_carries_granted_tokens_witness :
    App.sendWs (App.runEvs [.wsOpenEv, .granted "S1" "T1"]) "game:save"
        (.save "x") =
      some { type := "game:save", payload := .save "x",
             session_id := (App.runEvs [.wsOpenEv, .granted "S1" "T1"]).sessionId,
             owner_token := (App.runEvs [.wsOpenEv, .granted "S1" "T1"]).ownerToken } :=
  sendWs_carries_granted_tokens [.wsOpenEv, .granted "S1" "T1"] "game:save"
    (.save "x") (by decide) (by decide) (by decide)

/-- C2 counterexample: a client that has been told `session:busy` (so it
is not the owner and holds no tokens) still sends the owner-authored
message `node:jump` when a move-list entry is clicked; the claim that a
non-owner client only ever sends `session:takeover` is false on the
code, because the `renderMoveList` and `renderTree` click handlers call
`sendWs` with no owner gate. -/
theorem nonowner_click_sends_owner_message :
    (App.runEvs [.wsOpenEv, .busy]).isOwner = false ∧
    App.moveListJumpClick (App.runEvs [.wsOpenEv, .busy]) "n1" =
      some { type := "node:jump", payload := .jump "n1",
             session_id := none, owner_token := none } ∧
    ("node:jump" : String) ≠ "session:takeover" := by
  refine ⟨rfl, rfl, by decide⟩

/-- C2 amended: a non-owner client can still emit owner-authored frames
through the ungated handlers (move-list and tree jump clicks, the PV
play button, `game:new`, `game:load`), but in every reachable non-owner
state its token fields are null, so each frame it sends carries neither
`session_id` nor `owner_token` and the server freshness gate rejects
it. -/
theorem nonowner_frames_carry_no_tokens (evs : List App.ClientEv)
    (ty : String) (p : App.WsPayload) (fr : App.WsFrame)
    (hown : (App.runEvs evs).isOwner = false)
    (hsend : App.sendWs (App.runEvs evs) ty p = some fr) :
    fr.session_id = none ∧ fr.owner_token = none := by
  obtain ⟨hinv0, -, -⟩ := sessionInv_runEvs evs
  obtain ⟨hsid, htok⟩ := hinv0 hown
  unfold App.sendWs at hsend
  by_cases hw : (App.runEvs evs).wsOpen
  · rw [if_pos hw] at hsend
    cases hsend
    simp [hsid, htok, App.strTruthy]
  · rw [if_neg hw] at hsend
    cases hsend

/-- C2 amended witness: the frame sent by the busy non-owner client
carries no tokens. -/
theorem nonowner_frames_carry_no_tokens_witness :
    ({ type := "node:jump", payload := .jump "n1", session_id := none,
       owner_token := none } : App.WsFrame).session_id = none ∧
    ({ type := "node:jump", payload := .jump "n1", session_id := none,
       owner_token := none } : App.WsFrame).owner_token = none :=
  nonowner_frames_carry_no_tokens [.wsOpenEv, .busy] "node:jump" (.jump "n1")
    { type := "node:jump", payload := .jump "n1", session_id := none,
      owner_token := none } (by decide) (by decide)

/-- C9: every square returned by `getDropMoves` is a legal drop target:
it is empty; for a pawn no same-owner pawn already occupies the column;
and it is not on a dead-end rank for the owner's pawn, lance or
knight. -/
theorem getDropMoves_legal (board : App.Board) (pieceType owner : String)
    (rc : Fin 9 × Fin 9)
    (h : rc ∈ App.getDropMoves board pieceType owner) :
    board rc.1 rc.2 = none ∧
    (App.baseType pieceType = "pawn" →
      ∀ r : Fin 9, ∀ p : App.BoardPiece, board r rc.2 = some p →
        ¬(p.owner = owner ∧ p.piece = "pawn")) ∧
    ((App.baseType pieceType = "pawn" ∨ App.baseType pieceType = "lance") →
      (if owner = "sente" then rc.1.val ≠ 0 else rc.1.val ≠ 8)) ∧
    (App.baseType pieceType = "knight" →
      (if owner = "sente" then 2 ≤ rc.1.val else rc.1.val ≤ 6)) := by
  unfold App.getDropMoves at h
  rw [List.mem_filter] at h
  obtain ⟨-, hc⟩ := h
  simp only [Bool.and_eq_true, Bool.not_eq_true', beq_iff_eq] at hc
  obtain ⟨⟨h1, h2⟩, h3⟩ := hc
  refine ⟨h1, ?_, ?_, ?_⟩
  · intro hp r p hbp hcontra
    rw [hp] at h2
    simp only [beq_self_eq_true, Bool.true_and] at h2
    unfold App.wouldCreateNifu at h2
    rw [List.any_eq_false] at h2
    have hr := h2 r (List.mem_finRange r)
    rw [hbp] at hr
    simp [hcontra.1, hcontra.2] at hr
  · intro hpl
    unfold App.isDeadEndDrop at h3
    split at h3
    · split at h3
      next hos =>
        have ho : owner = "sente" := by simpa using hos
        rw [if_pos ho]
        simpa using h3
      next hos =>
        have ho : ¬ owner = "sente" := by simpa using hos
        rw [if_neg ho]
        simpa using h3
    next hcond =>
      exfalso
      cases hpl with
      | inl hx => rw [hx] at hcond; exact hcond (by decide)
      | inr hx => rw [hx] at hcond; exact hcond (by decide)
  · intro hk
    unfold App.isDeadEndDrop at h3
    split at h3
    next hcond =>
      exfalso
      rw [hk] at hcond
      exact absurd hcond (by decide)
    next hcond =>
      split at h3
      · split at h3
        next hos =>
          have ho : owner = "sente" := by simpa using hos
          rw [if_pos ho]
          have := of_decide_eq_false h3
          omega
        next hos =>
          have ho : ¬ owner = "sente" := by simpa using hos
          rw [if_neg ho]
          have := of_decide_eq_false h3
          omega
      next hcond2 =>
        exfalso
        rw [hk] at hcond2
        exact hcond2 (by decide)

/-- C9 witness: on the empty board, square (4,4) is a legal sente pawn
drop and indeed satisfies all three conditions. -/
theorem getDropMoves_legal_witness :
    (fun _ _ => none : App.Board) (4 : Fin 9) (4 : Fin 9) = none ∧
    (App.baseType "pawn" = "pawn" →
      ∀ r : Fin 9, ∀ p : App.BoardPiece,
        (fun _ _ => none : App.Board) r (4 : Fin 9) = some p →
        ¬(p.owner = "sente" ∧ p.piece = "pawn")) ∧
    ((App.baseType "pawn" = "pawn" ∨ App.baseType "pawn" = "lance") →
      (if ("sente" : String) = "sente" then ((4 : Fin 9) : Fin 9).val ≠ 0
       else ((4 : Fin 9) : Fin 9).val ≠ 8)) ∧
    (App.baseType "pawn" = "knight" →
      (if ("sente" : String) = "sente" then 2 ≤ ((4 : Fin 9) : Fin 9).val
       else ((4 : Fin 9) : Fin 9).val ≤ 6)) :=
  getDropMoves_legal (fun _ _ => none) "pawn" "sente" ((4 : Fin 9), (4 : Fin 9))
    (by decide)

/-- A first-child step strictly decreases any rank function that
decreases along `children_index` edges. -/
theorem firstChildId_rank_lt (g : App.GameView) (rank : String → Nat)
    (hAcyc : ∀ e ∈ g.children_index, ∀ c ∈ e.2, rank c < rank e.1)
    (a b : String) (h : App.firstChildId g a = some b) : rank b < rank a := by
  unfold App.firstChildId App.childIds at h
  cases hf : g.children_index.find? (fun e => e.1 == a) with
  | none =>
    rw [hf] at h
    simp at h
  | some e =>
    rw [hf] at h
    simp only [Option.map_some'] at h
    cases hl : e.2 with
    | nil =>
      rw [hl] at h
      simp at h
    | cons c cs =>
      rw [hl] at h
      simp only [Option.some.injEq] at h
      subst h
      have hmem := List.mem_of_find?_eq_some hf
      have heqb := List.find?_some hf
      have heq : e.1 = a := by simpa using heqb
      have hcm : c ∈ e.2 := by rw [hl]; exact List.mem_cons_self _ _
      have hlt := hAcyc e hmem c hcm
      rw [heq] at hlt
      exact hlt

/-- C10: on a game snapshot whose `children_index` relation is acyclic
(witnessed by a rank function decreasing along edges), the jump-to-end
loop terminates within any fuel above the rank of the start node, the
node it stops at has no first child, and that node is reached from the
start by following first-child edges. -/
theorem jumpEnd_terminates (g : App.GameView) (rank : String → Nat)
    (cur : String) (fuel : Nat)
    (hAcyc : ∀ e ∈ g.children_index, ∀ c ∈ e.2, rank c < rank e.1)
    (hfuel : rank cur < fuel) :
    App.firstChildId g (App.jumpEndFrom g fuel cur) = none ∧
    Relation.ReflTransGen (fun a b => App.firstChildId g a = some b) cur
      (App.jumpEndFrom g fuel cur) := by
  induction fuel generalizing cur with
  | zero => exact absurd hfuel (by omega)
  | succ n ih =>
    cases hf : App.firstChildId g cur with
    | none =>
      have hres : App.jumpEndFrom g (n + 1) cur = cur := by
        simp [App.jumpEndFrom, hf]
      rw [hres]
      exact ⟨hf, Relation.ReflTransGen.refl⟩
    | some c =>
      have hlt := firstChildId_rank_lt g rank hAcyc cur c hf
      have hres : App.jumpEndFrom g (n + 1) cur = App.jumpEndFrom g n c := by
        simp [App.jumpEndFrom, hf]
      obtain ⟨h1, h2⟩ := ih c (by omega)
      rw [hres]
      exact ⟨h1, Relation.ReflTransGen.head hf h2⟩

/-- C10 witness: a concrete three-level snapshot with a decreasing rank
function; the loop from the root stops at a childless node. -/
theorem jumpEnd_terminates_witness :
    App.firstChildId
      { children_index := [("root", ["a", "b"]), ("a", ["c"]), ("c", [])] }
      (App.jumpEndFrom
        { children_index := [("root", ["a", "b"]), ("a", ["c"]), ("c", [])] }
        4 "root") = none ∧
    Relation.ReflTransGen
      (fun a b => App.firstChildId
        { children_index := [("root", ["a", "b"]), ("a", ["c"]), ("c", [])] }
        a = some b) "root"
      (App.jumpEndFrom
        { children_index := [("root", ["a", "b"]), ("a", ["c"]), ("c", [])] }
        4 "root") :=
  jumpEnd_terminates
    { children_index := [("root", ["a", "b"]), ("a", ["c"]), ("c", [])] }
    (fun s => if s = "root" then 3 else if s = "a" then 2
              else if s = "b" then 2 else if s = "c" then 1 else 0)
    "root" 4 (by decide) (by decide)

/-- C3: play_move is idempotent on duplicates (spec-modelled game tree):
when a child of P already carries the normalized move, its id is
returned, no node is created and the children are unchanged; a second
identical call returns the same id and the same tree, the matching child
is unique, and the child count grows by one only on a fresh move. -/
theorem play_move_dedup (t : Core.STree) (P : Nat) (m : String)
    (hP : Core.nodeExists t P = true)
    (hdup : Core.matchCount t P (Core.normMove m) ≤ 1) :
    (∀ c, Core.findDup t P (Core.normMove m) = some c →
      Core.play_move t P m = .ok ({ t with current := c.node_id }, c.node_id)) ∧
    (∀ t1 id1, Core.play_move t P m = .ok (t1, id1) →
      Core.play_move t1 P m = .ok (t1, id1) ∧
      Core.matchCount t1 P (Core.normMove m) = 1 ∧
      (Core.childrenOfT t1 P).length =
        (Core.childrenOfT t P).length +
          (if Core.findDup t P (Core.normMove m) = none then 1 else 0)) := by
  cases hf : Core.findDup t P (Core.normMove m) with
  | some c =>
    have hpm : Core.play_move t P m =
        .ok ({ t with current := c.node_id }, c.node_id) := by
      unfold Core.play_move
      rw [hf]
      simp [hP]
    have hf0 := hf
    unfold Core.findDup at hf0
    have hmemf : c ∈ (Core.childrenOfT t P).filter
        (fun x => x.move_usi == some (Core.normMove m)) := by
      rw [List.mem_filter]
      refine ⟨List.mem_of_find?_eq_some hf0, ?_⟩
      have := List.find?_some hf0
      simpa using this
    have hpos : 1 ≤ Core.matchCount t P (Core.normMove m) := by
      unfold Core.matchCount
      have := List.length_pos_of_mem hmemf
      omega
    constructor
    · intro c0 hc0
      obtain rfl := Option.some.inj hc0
      exact hpm
    · intro t1 id1 h1
      rw [hpm, Except.ok.injEq, Prod.mk.injEq] at h1
      obtain ⟨h1a, h1b⟩ := h1
      subst h1a
      subst h1b
      refine ⟨?_, ?_, ?_⟩
      · have hf1 : Core.findDup { t with current := c.node_id } P
            (Core.normMove m) = some c := hf
        have hP1 : Core.nodeExists { t with current := c.node_id } P = true := hP
        unfold Core.play_move
        rw [hf1]
        simp [hP1]
      · have heq : Core.matchCount { t with current := c.node_id } P
            (Core.normMove m) = Core.matchCount t P (Core.normMove m) := rfl
        rw [heq]
        omega
      · rw [if_neg (by simp)]
        rfl
  | none =>
    have hpm : Core.play_move t P m =
        .ok ({ nodes := t.nodes ++
                 [{ node_id := t.counter, parent_id := some P,
                    order_index := (Core.childrenOfT t P).length,
                    move_usi := some (Core.normMove m) }],
               counter := t.counter + 1, current := t.counter }, t.counter) := by
      unfold Core.play_move
      rw [hf]
      simp [hP]
    have hf0 := hf
    unfold Core.findDup at hf0
    constructor
    · intro c0 hc0
      cases hc0
    · intro t1 id1 h1
      rw [hpm, Except.ok.injEq, Prod.mk.injEq] at h1
      obtain ⟨h1a, h1b⟩ := h1
      subst h1a
      subst h1b
      have hch : Core.childrenOfT
          { nodes := t.nodes ++
              [{ node_id := t.counter, parent_id := some P,
                 order_index := (Core.childrenOfT t P).length,
                 move_usi := some (Core.normMove m) }],
            counter := t.counter + 1, current := t.counter } P =
          Core.childrenOfT t P ++
            [{ node_id := t.counter, parent_id := some P,
               order_index := (Core.childrenOfT t P).length,
               move_usi := some (Core.normMove m) }] := by
        unfold Core.childrenOfT
        rw [List.filter_append]
        congr 1
        simp
      have hfempty : (Core.childrenOfT t P).filter
          (fun x => x.move_usi == some (Core.normMove m)) = [] := by
        rw [List.filter_eq_nil_iff]
        intro x hx
        have := List.find?_eq_none.mp hf0 x hx
        simpa using this
      have hfd : Core.findDup
          { nodes := t.nodes ++
              [{ node_id := t.counter, parent_id := some P,
                 order_index := (Core.childrenOfT t P).length,
                 move_usi := some (Core.normMove m) }],
            counter := t.counter + 1, current := t.counter } P
          (Core.normMove m) =
          some { node_id := t.counter, parent_id := some P,
                 order_index := (Core.childrenOfT t P).length,
                 move_usi := some (Core.normMove m) } := by
        unfold Core.findDup
        rw [hch, List.find?_append, hf0]
        simp
      have hP1 : Core.nodeExists
          { nodes := t.nodes ++
              [{ node_id := t.counter, parent_id := some P,
                 order_index := (Core.childrenOfT t P).length,
                 move_usi := some (Core.normMove m) }],
            counter := t.counter + 1, current := t.counter } P = true := by
        unfold Core.nodeExists at hP ⊢
        rw [List.any_append, hP]
        rfl
      refine ⟨?_, ?_, ?_⟩
      · unfold Core.play_move
        rw [hfd]
        simp [hP1]
      · unfold Core.matchCount
        rw [hch, List.filter_append, hfempty]
        simp
      · rw [hch, if_pos rfl]
        simp

/-- C3 witness: playing `7g7f` again on the tree produced by the first
play returns the same tree and the same node id 1, with exactly one
matching child. -/
theorem play_move_dedup_witness :
    Core.play_move
      { nodes := [{ node_id := 0, parent_id := none, order_index := 0,
                    move_usi := none },
                  { node_id := 1, parent_id := some 0, order_index := 0,
                    move_usi := some "7g7f" }],
        counter := 2, current := 1 } 0 "7g7f" =
      .ok ({ nodes := [{ node_id := 0, parent_id := none, order_index := 0,
                         move_usi := none },
                       { node_id := 1, parent_id := some 0, order_index := 0,
                         move_usi := some "7g7f" }],
             counter := 2, current := 1 }, 1) ∧
    Core.matchCount
      { nodes := [{ node_id := 0, parent_id := none, order_index := 0,
                    move_usi := none },
                  { node_id := 1, parent_id := some 0, order_index := 0,
                    move_usi := some "7g7f" }],
        counter := 2, current := 1 } 0 (Core.normMove "7g7f") = 1 := by
  have h := (play_move_dedup
    { nodes := [{ node_id := 0, parent_id := none, order_index := 0,
                  move_usi := none }], counter := 1, current := 0 } 0 "7g7f"
    (by decide) (by decide)).2
    { nodes := [{ node_id := 0, parent_id := none, order_index := 0,
                  move_usi := none },
                { node_id := 1, parent_id := some 0, order_index := 0,
                  move_usi := some "7g7f" }],
      counter := 2, current := 1 } 1 (by rfl)
  exact ⟨h.1, h.2.1⟩

/-- On a duplicate-free list, mapping every element to its index yields
exactly the index range. -/
theorem map_indexOf_range {α : Type} [DecidableEq α] (l : List α)
    (h : l.Nodup) :
    l.map (fun x => List.indexOf x l) = List.range l.length := by
  induction l with
  | nil => rfl
  | cons x xs ih =>
    rw [List.nodup_cons] at h
    rw [List.map_cons, List.indexOf_cons_self, List.length_cons,
        List.range_succ_eq_map]
    congr 1
    rw [← ih h.2, List.map_map]
    apply List.map_congr_left
    intro y hy
    have hne : x ≠ y := fun he => h.1 (he ▸ hy)
    simp only [Function.comp]
    rw [List.indexOf_cons_ne _ hne]

/-- Reordering never changes a parent pointer. -/
theorem reorderNode_parent (pid : Nat) (ids : List Nat) (n : Core.SNode) :
    (Core.reorderNode pid ids n).parent_id = n.parent_id := by
  unfold Core.reorderNode
  split <;> rfl

/-- Reordering never changes a node id. -/
theorem reorderNode_node_id (pid : Nat) (ids : List Nat) (n : Core.SNode) :
    (Core.reorderNode pid ids n).node_id = n.node_id := by
  unfold Core.reorderNode
  split <;> rfl

/-- On a child of the reordered parent, the new order index is the
position of the child id in the given list. -/
theorem reorderNode_child (pid : Nat) (ids : List Nat) (n : Core.SNode)
    (h : n.parent_id = some pid) :
    (Core.reorderNode pid ids n).order_index = List.indexOf n.node_id ids := by
  unfold Core.reorderNode
  rw [if_pos (by simp [h])]

/-- Nodes under a different parent are untouched by the reorder. -/
theorem reorderNode_other (pid : Nat) (ids : List Nat) (n : Core.SNode)
    (h : n.parent_id ≠ some pid) : Core.reorderNode pid ids n = n := by
  unfold Core.reorderNode
  rw [if_neg (by simpa using h)]

/-- Members of a children list point at that parent. -/
theorem childrenOfT_parent_eq (t : Core.STree) (q : Nat) (c : Core.SNode)
    (h : c ∈ Core.childrenOfT t q) : c.parent_id = some q := by
  unfold Core.childrenOfT at h
  rw [List.mem_filter] at h
  simpa using h.2

/-- Well-formedness is preserved by a `play_move` step. -/
theorem WF_play (t : Core.STree) (pid : Nat) (m : String)
    (h : Core.WF t) : Core.WF (Core.applyOp t (.play pid m)) := by
  obtain ⟨hnd, hlt, hpar, hgap⟩ := h
  simp only [Core.applyOp]
  cases hex : Core.nodeExists t pid with
  | false =>
    have hpm : Core.play_move t pid m = .error .UnknownNode := by
      unfold Core.play_move
      rw [if_pos hex]
    rw [hpm]
    exact ⟨hnd, hlt, hpar, hgap⟩
  | true =>
    cases hf : Core.findDup t pid (Core.normMove m) with
    | some c =>
      have hpm : Core.play_move t pid m =
          .ok ({ t with current := c.node_id }, c.node_id) := by
        unfold Core.play_move
        rw [hf]
        simp [hex]
      rw [hpm]
      exact ⟨hnd, hlt, hpar, hgap⟩
    | none =>
      have hpm : Core.play_move t pid m =
          .ok ({ nodes := t.nodes ++
                   [{ node_id := t.counter, parent_id := some pid,
                      order_index := (Core.childrenOfT t pid).length,
                      move_usi := some (Core.normMove m) }],
                 counter := t.counter + 1, current := t.counter }, t.counter) := by
        unfold Core.play_move
        rw [hf]
        simp [hex]
      rw [hpm]
      obtain ⟨x, hxmem, hxid⟩ : ∃ x ∈ t.nodes, x.node_id = pid := by
        unfold Core.nodeExists at hex
        rw [List.any_eq_true] at hex
        obtain ⟨x, hx1, hx2⟩ := hex
        exact ⟨x, hx1, by simpa using hx2⟩
      have hpidlt : pid < t.counter := hxid ▸ hlt x hxmem
      set ch : Core.SNode :=
        { node_id := t.counter, parent_id := some pid,
          order_index := (Core.childrenOfT t pid).length,
          move_usi := some (Core.normMove m) } with hch
      show Core.WF { nodes := t.nodes ++ [ch],
                     counter := t.counter + 1, current := t.counter }
      have hsplit : ∀ q : Nat, Core.childrenOfT
          { nodes := t.nodes ++ [ch],
            counter := t.counter + 1, current := t.counter } q =
          Core.childrenOfT t q ++ (if pid = q then [ch] else []) := by
        intro q
        show List.filter _ (t.nodes ++ [ch]) = _
        rw [List.filter_append]
        congr 1
        by_cases hq : pid = q
        · rw [if_pos hq]
          simp [hch, hq]
        · rw [if_neg hq]
          simp [hch, hq]
      refine ⟨?_, ?_, ?_, ?_⟩
      · show ((t.nodes ++ [ch]).map (fun n => n.node_id)).Nodup
        rw [List.map_append]
        rw [List.nodup_append]
        refine ⟨hnd, by simp, ?_⟩
        rw [List.map_singleton, List.disjoint_singleton]
        intro hmem
        rw [List.mem_map] at hmem
        obtain ⟨n, hn1, hn2⟩ := hmem
        have := hlt n hn1
        have hcid : ch.node_id = t.counter := rfl
        rw [hcid] at hn2
        omega
      · show ∀ n ∈ t.nodes ++ [ch], n.node_id < t.counter + 1
        intro n hn
        rw [List.mem_append] at hn
        cases hn with
        | inl hn => have := hlt n hn; omega
        | inr hn =>
          rw [List.mem_singleton] at hn
          subst hn
          show t.counter < t.counter + 1
          omega
      · show ∀ n ∈ t.nodes ++ [ch], ∀ p, n.parent_id = some p →
          ∃ m0 ∈ t.nodes ++ [ch], m0.node_id = p
        intro n hn p hp
        rw [List.mem_append] at hn
        cases hn with
        | inl hn =>
          obtain ⟨m0, hm1, hm2⟩ := hpar n hn p hp
          exact ⟨m0, List.mem_append_left _ hm1, hm2⟩
        | inr hn =>
          rw [List.mem_singleton] at hn
          subst hn
          have hp2 : some pid = some p := hp
          rw [Option.some.injEq] at hp2
          subst hp2
          exact ⟨x, List.mem_append_left _ hxmem, hxid⟩
      · intro n hn
        have hn2 : n ∈ t.nodes ++ [ch] := hn
        rw [List.mem_append] at hn2
        rw [hsplit n.node_id]
        cases hn2 with
        | inl hmem =>
          by_cases hq : pid = n.node_id
          · rw [if_pos hq]
            rw [List.map_append, List.length_append]
            have hg := hgap n hmem
            rw [← hq] at hg ⊢
            have hco : ch.order_index = (Core.childrenOfT t pid).length := rfl
            rw [List.map_singleton, List.length_singleton, hco]
            have hstep := hg.append_right [(Core.childrenOfT t pid).length]
            rw [List.range_succ]
            exact hstep
          · rw [if_neg hq]
            rw [List.append_nil]
            exact hgap n hmem
        | inr hmem =>
          rw [List.mem_singleton] at hmem
          subst hmem
          have hcid : ch.node_id = t.counter := rfl
          rw [hcid]
          have hc1 : Core.childrenOfT t t.counter = [] := by
            unfold Core.childrenOfT
            rw [List.filter_eq_nil_iff]
            intro y hy hyp
            have hyp2 : y.parent_id = some t.counter := by simpa using hyp
            obtain ⟨m0, hm1, hm2⟩ := hpar y hy t.counter hyp2
            have := hlt m0 hm1
            omega
          rw [hc1]
          rw [if_neg (by omega)]
          simp

/-- Well-formedness is preserved by a `reorder_children` step. -/
theorem WF_reorder (t : Core.STree) (pid : Nat) (ids : List Nat)
    (h : Core.WF t) : Core.WF (Core.applyOp t (.reorder pid ids)) := by
  obtain ⟨hnd, hlt, hpar, hgap⟩ := h
  simp only [Core.applyOp]
  cases hex : Core.nodeExists t pid with
  | false =>
    have hrc : Core.reorder_children t pid ids = .error .UnknownNode := by
      unfold Core.reorder_children
      rw [if_pos hex]
    rw [hrc]
    exact ⟨hnd, hlt, hpar, hgap⟩
  | true =>
    by_cases hperm : ids.Perm ((Core.childrenOfT t pid).map (·.node_id))
    case neg =>
      have hrc : Core.reorder_children t pid ids = .error .BadPermutation := by
        unfold Core.reorder_children
        rw [if_neg (by simp [hex]), if_neg hperm]
      rw [hrc]
      exact ⟨hnd, hlt, hpar, hgap⟩
    case pos =>
      have hrc : Core.reorder_children t pid ids =
          .ok { t with nodes := t.nodes.map (Core.reorderNode pid ids) } := by
        unfold Core.reorder_children
        rw [if_neg (by simp [hex]), if_pos hperm]
      rw [hrc]
      have hids : ∀ ns : List Core.SNode,
          (ns.map (Core.reorderNode pid ids)).map (fun n => n.node_id) =
          ns.map (fun n => n.node_id) := by
        intro ns
        rw [List.map_map]
        apply List.map_congr_left
        intro n hn
        simp only [Function.comp]
        exact reorderNode_node_id pid ids n
      have hchild : ∀ q : Nat, Core.childrenOfT
          { t with nodes := t.nodes.map (Core.reorderNode pid ids) } q =
          (Core.childrenOfT t q).map (Core.reorderNode pid ids) := by
        intro q
        show List.filter _ (t.nodes.map (Core.reorderNode pid ids)) = _
        rw [List.filter_map]
        congr 1
        apply List.filter_congr
        intro n hn
        simp only [Function.comp]
        rw [reorderNode_parent]
      refine ⟨?_, ?_, ?_, ?_⟩
      · show ((t.nodes.map (Core.reorderNode pid ids)).map
          (fun n => n.node_id)).Nodup
        rw [hids]
        exact hnd
      · show ∀ n ∈ t.nodes.map (Core.reorderNode pid ids),
          n.node_id < t.counter
        intro n hn
        rw [List.mem_map] at hn
        obtain ⟨n0, hn0, hn0e⟩ := hn
        subst hn0e
        rw [reorderNode_node_id]
        exact hlt n0 hn0
      · show ∀ n ∈ t.nodes.map (Core.reorderNode pid ids), ∀ p,
          n.parent_id = some p →
          ∃ m0 ∈ t.nodes.map (Core.reorderNode pid ids), m0.node_id = p
        intro n hn p hp
        rw [List.mem_map] at hn
        obtain ⟨n0, hn0, hn0e⟩ := hn
        subst hn0e
        rw [reorderNode_parent] at hp
        obtain ⟨m0, hm1, hm2⟩ := hpar n0 hn0 p hp
        refine ⟨Core.reorderNode pid ids m0, List.mem_map_of_mem _ hm1, ?_⟩
        rw [reorderNode_node_id]
        exact hm2
      · intro n hn
        rw [List.mem_map] at hn
        obtain ⟨n0, hn0, hn0e⟩ := hn
        subst hn0e
        rw [hchild, reorderNode_node_id]
        by_cases hq : n0.node_id = pid
        · rw [hq]
          have horders : ((Core.childrenOfT t pid).map
              (Core.reorderNode pid ids)).map (fun n => n.order_index) =
              ((Core.childrenOfT t pid).map (fun n => n.node_id)).map
                (fun y => List.indexOf y ids) := by
            rw [List.map_map, List.map_map]
            apply List.map_congr_left
            intro c hc
            simp only [Function.comp]
            rw [reorderNode_child pid ids c (childrenOfT_parent_eq t pid c hc)]
          rw [horders]
          have hcs : ((Core.childrenOfT t pid).map (fun n => n.node_id)).Nodup := by
            have hsub : ((Core.childrenOfT t pid).map (fun n => n.node_id)).Sublist
                (t.nodes.map (fun n => n.node_id)) := by
              unfold Core.childrenOfT
              exact List.Sublist.map _ (List.filter_sublist _)
            exact hsub.nodup hnd
          have hidsnd : ids.Nodup := hperm.symm.nodup hcs
          have hrange := map_indexOf_range ids hidsnd
          have hmapped : (((Core.childrenOfT t pid).map (fun n => n.node_id)).map
              (fun y => List.indexOf y ids)).Perm
              (ids.map (fun y => List.indexOf y ids)) :=
            (hperm.map (fun y => List.indexOf y ids)).symm
          have hlen : ((Core.childrenOfT t pid).map
              (Core.reorderNode pid ids)).length = ids.length := by
            rw [List.length_map, hperm.length_eq, List.length_map]
          rw [hlen, ← hrange]
          exact hmapped
        · have hfix : (Core.childrenOfT t n0.node_id).map
              (Core.reorderNode pid ids) = Core.childrenOfT t n0.node_id := by
            conv_rhs => rw [← List.map_id (Core.childrenOfT t n0.node_id)]
            apply List.map_congr_left
            intro c hc
            have hcp := childrenOfT_parent_eq t n0.node_id c hc
            show Core.reorderNode pid ids c = c
            apply reorderNode_other
            rw [hcp]
            intro hcc
            rw [Option.some.injEq] at hcc
            exact hq hcc
          rw [hfix]
          exact hgap n0 hn0

/-- Well-formedness is preserved by any finite operation sequence. -/
theorem WF_applyOps (ops : List Core.Op) (t : Core.STree)
    (h : Core.WF t) : Core.WF (Core.applyOps t ops) := by
  induction ops generalizing t with
  | nil => exact h
  | cons op ops ih =>
    show Core.WF (List.foldl Core.applyOp t (op :: ops))
    rw [List.foldl_cons]
    apply ih
    cases op with
    | play pid m => exact WF_play t pid m h
    | reorder pid ids => exact WF_reorder t pid ids h

/-- C4: sibling order gaplessness is an invariant (spec-modelled game
tree): after any finite sequence of `play_move` and `reorder_children`
operations on a well-formed tree, every node with k children carries
exactly the multiset of order indices 0..k-1. -/
theorem tree_gapless_invariant (t : Core.STree) (ops : List Core.Op)
    (h : Core.WF t) : Core.Gapless (Core.applyOps t ops) :=
  (WF_applyOps ops t h).2.2.2

/-- C4 witness: two plays and a reorder on a root-only tree keep sibling
orders gapless. -/
theorem tree_gapless_invariant_witness :
    Core.Gapless (Core.applyOps
      { nodes := [{ node_id := 0, parent_id := none, order_index := 0,
                    move_usi := none }], counter := 1, current := 0 }
      [.play 0 "7g7f", .play 0 "2g2f", .reorder 0 [2, 1],
       .play 0 "7G7F "]) :=
  tree_gapless_invariant
    { nodes := [{ node_id := 0, parent_id := none, order_index := 0,
                  move_usi := none }], counter := 1, current := 0 }
    [.play 0 "7g7f", .play 0 "2g2f", .reorder 0 [2, 1], .play 0 "7G7F "]
    (by decide)

/-- From any coalescer state, the previous flush time followed by the
emission times of a run forms a chain under the cadence relation. -/
theorem coRun_chain (evs : List Core.CoEvent) :
    ∀ s : Core.CoState, List.Chain' (Core.cadenceOK s.startT)
      (s.lastFlush.toList ++ (Core.coRun s evs).2) := by
  induction evs with
  | nil =>
    intro s
    cases s.lastFlush <;> simp [Core.coRun]
  | cons ev evs ih =>
    intro s
    cases ev with
    | raw t =>
      have hstep : Core.coStep s (.raw t) = ({ s with dirty := true }, none) := rfl
      show List.Chain' (Core.cadenceOK s.startT)
        (s.lastFlush.toList ++ ((Core.coStep s (.raw t)).2.toList ++
          (Core.coRun (Core.coStep s (.raw t)).1 evs).2))
      rw [hstep]
      have := ih { s with dirty := true }
      simpa using this
    | tick t =>
      by_cases hcf : Core.canFlush s t = true
      · have hstep : Core.coStep s (.tick t) =
            ({ s with lastFlush := some t, dirty := false }, some t) := by
          simp only [Core.coStep]
          rw [if_pos hcf]
        show List.Chain' (Core.cadenceOK s.startT)
          (s.lastFlush.toList ++ ((Core.coStep s (.tick t)).2.toList ++
            (Core.coRun (Core.coStep s (.tick t)).1 evs).2))
        rw [hstep]
        have hih := ih { s with lastFlush := some t, dirty := false }
        cases hlf : s.lastFlush with
        | none =>
          simpa using hih
        | some lf =>
          have hle : Core.coInterval s.startT t ≤ t - lf := by
            unfold Core.canFlush at hcf
            rw [hlf] at hcf
            rw [Bool.and_eq_true] at hcf
            exact of_decide_eq_true hcf.2
          have hR : Core.cadenceOK s.startT lf t := by
            unfold Core.cadenceOK
            unfold Core.coInterval at hle
            by_cases hb : t < s.startT + 5000
            · rw [if_pos hb] at hle ⊢
              exact hle
            · rw [if_neg hb] at hle ⊢
              exact hle
          show List.Chain' (Core.cadenceOK s.startT) (lf :: t :: (Core.coRun { s with lastFlush := some t, dirty := false } evs).2)
          rw [List.chain'_cons]
          refine ⟨hR, ?_⟩
          simpa using hih
      · have hstep : Core.coStep s (.tick t) = (s, none) := by
          simp only [Core.coStep]
          rw [if_neg hcf]
        show List.Chain' (Core.cadenceOK s.startT)
          (s.lastFlush.toList ++ ((Core.coStep s (.tick t)).2.toList ++
            (Core.coRun (Core.coStep s (.tick t)).1 evs).2))
        rw [hstep]
        have := ih s
        simpa using this

/-- A run emits at most one update per raw engine update, plus one for
a pending dirty flag. -/
theorem coRun_count (evs : List Core.CoEvent) :
    ∀ s : Core.CoState, (Core.coRun s evs).2.length ≤
      Core.rawCount evs + (if s.dirty then 1 else 0) := by
  induction evs with
  | nil =>
    intro s
    simp [Core.coRun, Core.rawCount]
  | cons ev evs ih =>
    intro s
    cases ev with
    | raw t =>
      have hstep : Core.coStep s (.raw t) = ({ s with dirty := true }, none) := rfl
      show ((Core.coStep s (.raw t)).2.toList ++
          (Core.coRun (Core.coStep s (.raw t)).1 evs).2).length ≤ _
      rw [hstep]
      have hih2 : (Core.coRun { s with dirty := true } evs).2.length ≤
          Core.rawCount evs + 1 := by
        have := ih { s with dirty := true }
        simpa using this
      have hrc : Core.rawCount (.raw t :: evs) = Core.rawCount evs + 1 := by
        simp [Core.rawCount]
      rw [hrc]
      simp only [Option.toList, List.nil_append]
      by_cases hd : s.dirty = true <;> simp [hd] <;> omega
    | tick t =>
      have hrc : Core.rawCount (.tick t :: evs) = Core.rawCount evs := by
        simp [Core.rawCount]
      by_cases hcf : Core.canFlush s t = true
      · have hd : s.dirty = true := by
          unfold Core.canFlush at hcf
          rw [Bool.and_eq_true] at hcf
          exact hcf.1
        have hstep : Core.coStep s (.tick t) =
            ({ s with lastFlush := some t, dirty := false }, some t) := by
          simp only [Core.coStep]
          rw [if_pos hcf]
        have hih2 : (Core.coRun { s with lastFlush := some t, dirty := false } evs).2.length ≤ Core.rawCount evs := by
          have := ih { s with lastFlush := some t, dirty := false }
          simpa using this
        show ((Core.coStep s (.tick t)).2.toList ++
            (Core.coRun (Core.coStep s (.tick t)).1 evs).2).length ≤ _
        rw [hstep, hrc]
        have hiteq : (if s.dirty = true then (1 : Nat) else 0) = 1 := by
          rw [hd]
          simp
        rw [hiteq]
        simp only [Option.toList, List.singleton_append, List.length_cons]
        omega
      · have hstep : Core.coStep s (.tick t) = (s, none) := by
          simp only [Core.coStep]
          rw [if_neg hcf]
        show ((Core.coStep s (.tick t)).2.toList ++
            (Core.coRun (Core.coStep s (.tick t)).1 evs).2).length ≤ _
        rw [hstep, hrc]
        simpa using ih s

/-- C6: emission cadence bound (spec-modelled coordinator): from a fresh
search, consecutive `analysis:update` emissions are at least 500 ms
apart while the later one is within the first 5000 ms of the search and
at least 1000 ms apart afterwards, and no more updates are emitted than
raw `info` updates arrived (a flush needs a fresh raw update). -/
theorem cadence_bound (startT : Nat) (evs : List Core.CoEvent) :
    List.Chain' (Core.cadenceOK startT)
      (Core.coRun (Core.coInit startT) evs).2 ∧
    (Core.coRun (Core.coInit startT) evs).2.length ≤ Core.rawCount evs := by
  constructor
  · have := coRun_chain evs (Core.coInit startT)
    simpa [Core.coInit] using this
  · have := coRun_count evs (Core.coInit startT)
    simpa [Core.coInit] using this
